import Mathlib

/-!
Shallow embedding of the zakat blockchain simulator (src/block.py, src/miner.py,
src/transaction.py).  Python floats are modelled as rationals (ℚ); Python dicts
are modelled as insertion-ordered association lists; `time.time()` is modelled by
passing the creation instant explicitly as an argument.  The two external library
functions used by the core — `hashlib.sha256(...).hexdigest()` and
`json.dumps(..., sort_keys=True)` — and Python's `f"{x:.2f}"` float formatting
are not part of this repository; they are modelled as an explicit parameter
record `LibFuns`, and every theorem quantifies over it.
-/

namespace ZakatSim

/-- A mined transaction record: a Python dict with keys
`sender`, `receiver`, `amount`, `type`, `timestamp` (the app layer always
populates all five keys, so the fields are total here).  `type` is kept as a
raw string because the source compares it with `== 'transfer'` / `== 'zakat'`. -/
structure Tx where
  sender : String
  receiver : String
  amount : ℚ
  ttype : String
  timestamp : ℚ

deriving instance DecidableEq for Tx

/-- The `transactions` field of a block: either a plain string (the genesis
block stores `"Genesis Block"`) or a list of transaction records.  This mirrors
the `isinstance(block.transactions, list)` dispatch in the source. -/
inductive TxData where
  | str (s : String)
  | list (txs : List Tx)

deriving instance DecidableEq for TxData

/-- The four fields of a block that are fed to `json.dumps` in
`Block.compute_hash` (in the dict-literal order of the source). -/
structure BlockData where
  transactions : TxData
  timestamp : ℚ
  roll_no : String
  prev_hash : String

deriving instance DecidableEq for BlockData

/-- `Block` from src/block.py: the four data fields plus the stored `hash`
(computed once at construction). -/
structure Block where
  transactions : TxData
  timestamp : ℚ
  roll_no : String
  prev_hash : String
  hash : String

deriving instance DecidableEq for Block

/-- A value of the ledger's `accounts` mirror: either a structured record
`{'balance': ..., 'roll_no': ...}` or a bare number (the source defensively
handles both shapes). -/
inductive AcctVal where
  | entry (balance : ℚ) (roll_no : String)
  | num (x : ℚ)

deriving instance DecidableEq for AcctVal

/-- The external library functions used by the core, modelled abstractly:
`sha256` is `hashlib.sha256(·.encode()).hexdigest()`, `jsonDumps` is
`json.dumps(block_data, sort_keys=True)` on the four-field block dict, and
`pyFmt` is Python's `f"{x:.2f}"` formatting of a float. -/
structure LibFuns where
  sha256 : String → String
  jsonDumps : BlockData → String
  pyFmt : ℚ → String

/-- Python dict lookup `d.get(k)` on an insertion-ordered association list. -/
def dictGet {α : Type} : List (String × α) → String → Option α
  | [], _ => none
  | (k, v) :: rest, key => if k = key then some v else dictGet rest key

/-- Python dict assignment `d[k] = v`: replaces the value in place if the key
is present, otherwise appends the new key at the end (Python dicts preserve
insertion order). -/
def dictSet {α : Type} : List (String × α) → String → α → List (String × α)
  | [], key, v => [(key, v)]
  | (k, w) :: rest, key, v =>
      if k = key then (key, v) :: rest else (k, w) :: dictSet rest key v

/-- The four hashed fields of a block (the `block_data` dict of
`Block.compute_hash`). -/
def blockData (b : Block) : BlockData :=
  ⟨b.transactions, b.timestamp, b.roll_no, b.prev_hash⟩

/-- `Block.compute_hash` as a function of the four hashed fields:
`sha256(json.dumps(block_data, sort_keys=True) + "_" + roll_no)` (the
`seed_string = f"{block_string}_{self.roll_no}"` of the source). -/
def computeHashData (L : LibFuns) (d : BlockData) : String :=
  L.sha256 (L.jsonDumps d ++ "_" ++ d.roll_no)

/-- `Block.compute_hash` (src/block.py lines 17-37). -/
def Block.compute_hash (L : LibFuns) (b : Block) : String :=
  computeHashData L (blockData b)

/-- `Block.__init__(transactions, prev_hash, roll_no)` (src/block.py lines
10-15): stamps the creation instant (`time.time()`, passed here as `now`) and
computes `hash` immediately from the four data fields. -/
def Block.mkNew (L : LibFuns) (transactions : TxData) (prev_hash : String)
    (roll_no : String) (now : ℚ) : Block :=
  { transactions := transactions
    timestamp := now
    roll_no := roll_no
    prev_hash := prev_hash
    hash := computeHashData L ⟨transactions, now, roll_no, prev_hash⟩ }

/-- `Block.verify_integrity` (src/block.py lines 51-57): recompute the hash
from the current field values and compare with the stored hash. -/
def Block.verify_integrity (L : LibFuns) (b : Block) : Bool :=
  b.hash == b.compute_hash L

/-- `Blockchain` state (src/miner.py): the chain and the `accounts` mirror. -/
structure Blockchain where
  chain : List Block
  accounts : List (String × AcctVal)

/-- `Blockchain.__init__(roll_no)` together with `create_genesis_block`
(src/miner.py lines 8-21): empty accounts dict seeded with the
`Zakat_Account` entry, then the genesis block
`Block("Genesis Block", "0", roll_no)` appended to the empty chain. -/
def Blockchain.init (L : LibFuns) (roll_no : String) (now : ℚ) : Blockchain :=
  { chain := [Block.mkNew L (TxData.str "Genesis Block") "0" roll_no now]
    accounts := [("Zakat_Account", AcctVal.entry 0 "0000")] }

/-- Body of the per-transaction loop of
`Blockchain.update_account_balances_from_block` (src/miner.py lines 47-72).
Python's truthiness test `if sender and receiver and amount > 0` is
`sender ≠ "" ∧ receiver ≠ "" ∧ 0 < amount` for string keys. -/
def updBalancesOne (accounts : List (String × AcctVal)) (tx : Tx) :
    List (String × AcctVal) :=
  if tx.sender ≠ "" ∧ tx.receiver ≠ "" ∧ 0 < tx.amount then
    -- initialize accounts if they don't exist (sender first, then receiver)
    let a1 := match dictGet accounts tx.sender with
      | none => dictSet accounts tx.sender (AcctVal.entry 200 "0000")
      | some _ => accounts
    let a2 := match dictGet a1 tx.receiver with
      | none => dictSet a1 tx.receiver (AcctVal.entry 200 "0000")
      | some _ => a1
    -- debit the sender (dict-shaped value keeps its roll_no, bare number is
    -- rewrapped); the `none` branch is unreachable because the key was just
    -- initialized above
    let a3 := match dictGet a2 tx.sender with
      | some (AcctVal.entry b r) => dictSet a2 tx.sender (AcctVal.entry (b - tx.amount) r)
      | some (AcctVal.num x) => dictSet a2 tx.sender (AcctVal.entry (x - tx.amount) "0000")
      | none => a2
    -- credit the receiver
    match dictGet a3 tx.receiver with
      | some (AcctVal.entry b r) => dictSet a3 tx.receiver (AcctVal.entry (b + tx.amount) r)
      | some (AcctVal.num x) => dictSet a3 tx.receiver (AcctVal.entry (x + tx.amount) "0000")
      | none => a3
  else accounts

/-- `Blockchain.update_account_balances_from_block` (src/miner.py lines
42-72): only list-shaped `transactions` are replayed into the mirror. -/
def update_account_balances_from_block (accounts : List (String × AcctVal))
    (block : Block) : List (String × AcctVal) :=
  match block.transactions with
  | TxData.str _ => accounts
  | TxData.list txs => txs.foldl updBalancesOne accounts

/-- `Blockchain.add_block(transactions, roll_no)` (src/miner.py lines 23-40).
Returns the Python return value paired with the post-state. -/
def Blockchain.add_block (L : LibFuns) (bc : Blockchain) (transactions : TxData)
    (roll_no : String) (now : ℚ) : Bool × Blockchain :=
  match bc.chain.getLast? with
  | none => (false, bc)
  | some prev_block =>
    let new_block := Block.mkNew L transactions prev_block.hash roll_no now
    if new_block.verify_integrity L && (new_block.prev_hash == prev_block.hash) then
      (true, { chain := bc.chain ++ [new_block]
               accounts := update_account_balances_from_block bc.accounts new_block })
    else (false, bc)

/-- `Blockchain.get_all_accounts` (src/miner.py lines 74-86): bare-number
values are rewrapped as `{'balance': x, 'roll_no': '0000'}`. -/
def get_all_accounts (accounts : List (String × AcctVal)) :
    List (String × AcctVal) :=
  accounts.map (fun p =>
    match p.2 with
    | AcctVal.entry b r => (p.1, AcctVal.entry b r)
    | AcctVal.num x => (p.1, AcctVal.entry x "0000"))

/-- Body of the per-transaction replay loop.  This loop body appears verbatim
in both `Blockchain.calculate_account_balance_from_history` (src/miner.py
lines 100-116) and `Transaction.calculate_balance_from_blockchain`
(src/transaction.py lines 56-73); the two sources are textually identical, so
the single definition serves both.  A `transfer`-typed record costs its sender
`amount` plus a freshly recomputed levy `amount * 0.025`; a `zakat`-typed
record costs its sender `amount`; any other type costs nothing; the receiver
always gains `amount`. -/
def replayStep (account_name : String) (balance : ℚ) (tx : Tx) : ℚ :=
  let b1 :=
    if tx.sender = account_name then
      if tx.ttype = "transfer" then balance - tx.amount - tx.amount * 0.025
      else if tx.ttype = "zakat" then balance - tx.amount
      else balance
    else balance
  if tx.receiver = account_name then b1 + tx.amount else b1

/-- Per-block replay: only list-shaped `transactions` contribute. -/
def replayBlock (account_name : String) (balance : ℚ) (b : Block) : ℚ :=
  match b.transactions with
  | TxData.str _ => balance
  | TxData.list txs => txs.foldl (replayStep account_name) balance

/-- `Blockchain.calculate_account_balance_from_history` (src/miner.py lines
88-118): start from 200.0 (0.0 for `Zakat_Account`) and replay every
transaction of every block. -/
def Blockchain.calculate_account_balance_from_history (bc : Blockchain)
    (account_name : String) : ℚ :=
  let balance : ℚ := if account_name ≠ "Zakat_Account" then 200 else 0
  bc.chain.foldl (replayBlock account_name) balance

/-- `Blockchain.validate_transaction_against_blockchain` (src/miner.py lines
120-135).  The `receiver` parameter is accepted and ignored, as in the
source. -/
def Blockchain.validate_transaction_against_blockchain (L : LibFuns)
    (bc : Blockchain) (sender receiver : String) (amount : ℚ) : Bool × String :=
  let sender_balance := bc.calculate_account_balance_from_history sender
  let zakat_amount := amount * 0.025
  let total_amount := amount + zakat_amount
  if sender_balance < total_amount then
    (false, "Insufficient balance. " ++ sender ++ " has $" ++
      L.pyFmt sender_balance ++ " but needs $" ++ L.pyFmt total_amount)
  else
    (true, "Transaction is valid")

/-- The loop of `Blockchain.is_valid` from index 1 on: `prev` is the block at
the previous index; each block must pass `verify_integrity` and its
`prev_hash` must equal the predecessor's stored `hash` (checked in that order,
short-circuiting on the first failure, as in the source). -/
def isValidFrom (L : LibFuns) : Block → List Block → Bool
  | _, [] => true
  | prev, b :: rest =>
      b.verify_integrity L && (b.prev_hash == prev.hash) && isValidFrom L b rest

/-- `Blockchain.is_valid` (src/miner.py lines 137-158): false on an empty
chain; the block at index 0 is checked for integrity only; every later block
is checked for integrity and for linkage to its predecessor. -/
def Blockchain.is_valid (L : LibFuns) (bc : Blockchain) : Bool :=
  match bc.chain with
  | [] => false
  | b :: rest => b.verify_integrity L && isValidFrom L b rest

/-- `Transaction` (src/transaction.py lines 8-12); `timestamp` is the
creation instant passed explicitly. -/
structure Transaction where
  sender : String
  receiver : String
  amount : ℚ
  timestamp : ℚ

/-- `Transaction.calculate_balance_from_blockchain(blockchain, account_name)`
(src/transaction.py lines 43-75): start from the ledger's `accounts` mirror
(via `get_all_accounts`, taking `.get('balance', 0.0)` of the entry) if the
account is present there, else from 0.0, then replay every transaction of
every block with the same loop body as the miner's replay. -/
def Transaction.calculate_balance_from_blockchain (_t : Transaction)
    (blockchain : Blockchain) (account_name : String) : ℚ :=
  let balance : ℚ := 0
  let balance :=
    match dictGet (get_all_accounts blockchain.accounts) account_name with
    | some (AcctVal.entry b _) => b
    | some (AcctVal.num x) => x
    | none => balance
  blockchain.chain.foldl (replayBlock account_name) balance

/-- `Transaction.validate_against_blockchain(blockchain, accounts)`
(src/transaction.py lines 14-41). -/
def Transaction.validate_against_blockchain (L : LibFuns) (t : Transaction)
    (blockchain : Blockchain) (accounts : List (String × AcctVal)) :
    Bool × String :=
  let sender_balance := t.calculate_balance_from_blockchain blockchain t.sender
  if sender_balance < t.amount then
    (false, "Insufficient balance. " ++ t.sender ++ " has $" ++
      L.pyFmt sender_balance ++ " but needs $" ++ L.pyFmt t.amount)
  else if (dictGet accounts t.sender).isNone then
    (false, "Sender account '" ++ t.sender ++ "' does not exist.")
  else if (dictGet accounts t.receiver).isNone then
    (false, "Receiver account '" ++ t.receiver ++ "' does not exist.")
  else if t.amount ≤ 0 then
    (false, "Transaction amount must be positive.")
  else if t.sender = t.receiver then
    (false, "Sender and receiver cannot be the same")
  else
    (true, "Transaction is valid")

/-- `Transaction.apply(accounts)` (src/transaction.py lines 77-101), with the
raised exceptions modelled as `Except.error`.  The balances dict maps account
names to plain numbers, as at the call sites in app.py.  The inner lookup of
the receiver after the sender debit mirrors `accounts[self.receiver] +=
self.amount` reading the once-updated dict; its default is never taken since
the receiver was checked to be present and `dictSet` preserves keys. -/
def Transaction.apply (L : LibFuns) (t : Transaction)
    (accounts : List (String × ℚ)) : Except String (List (String × ℚ)) :=
  match dictGet accounts t.sender with
  | none => Except.error ("Sender account '" ++ t.sender ++ "' does not exist.")
  | some sbal =>
    match dictGet accounts t.receiver with
    | none => Except.error ("Receiver account '" ++ t.receiver ++ "' does not exist.")
    | some _ =>
      if t.amount ≤ 0 then
        Except.error "Transaction amount must be positive."
      else if sbal < t.amount then
        Except.error ("Insufficient balance. " ++ t.sender ++ " has $" ++
          L.pyFmt sbal ++ " but needs $" ++ L.pyFmt t.amount)
      else
        let m1 := dictSet accounts t.sender (sbal - t.amount)
        let rbal := (dictGet m1 t.receiver).getD 0
        Except.ok (dictSet m1 t.receiver (rbal + t.amount))

/-- Ledger states reachable from `Blockchain.__init__` by finite sequences of
successful `add_block` calls (seal keys and creation instants arbitrary). -/
inductive Reachable (L : LibFuns) : Blockchain → Prop where
  | init (roll_no : String) (now : ℚ) : Reachable L (Blockchain.init L roll_no now)
  | step (bc : Blockchain) (transactions : TxData) (roll_no : String) (now : ℚ) :
      Reachable L bc → (bc.add_block L transactions roll_no now).1 = true →
      Reachable L (bc.add_block L transactions roll_no now).2

/-- The hash-linkage relation between a block and its successor. -/
def linkOk (a b : Block) : Prop := b.prev_hash = a.hash

/-- A concrete instantiation of the external library functions used to
evaluate the model on closed inputs. -/
def simpleLib : LibFuns :=
  { sha256 := fun s => s, jsonDumps := fun _ => "", pyFmt := fun _ => "" }

/-- The transfer record of the spec's worked scenario. -/
def scTransfer : Tx :=
  { sender := "Alice", receiver := "Bob", amount := 50, ttype := "transfer", timestamp := 2 }

/-- The paired zakat record of the spec's worked scenario. -/
def scZakat : Tx :=
  { sender := "Alice", receiver := "Zakat_Account", amount := 1.25, ttype := "zakat", timestamp := 3 }

/-- A fresh ledger (default seal key, creation instant 0). -/
def scFresh : Blockchain := Blockchain.init simpleLib "0000" 0

/-- The ledger after mining the scenario's two records onto the fresh ledger. -/
def scMined : Blockchain :=
  (scFresh.add_block simpleLib (TxData.list [scTransfer, scZakat]) "r1" 1).2

/-- The total replay contribution of a chain to one account, starting from a
zero balance (the shared per-transaction loop folded from 0).  Used to state
how the two replay functions decompose. -/
def chainDelta (c : List Block) (account_name : String) : ℚ :=
  c.foldl (replayBlock account_name) 0

/-- The starting value `Transaction.calculate_balance_from_blockchain` reads
off the ledger's accounts mirror: the mirror balance when the account is
present (via `get_all_accounts`), otherwise 0. -/
def mirrorStart (bc : Blockchain) (account_name : String) : ℚ :=
  match dictGet (get_all_accounts bc.accounts) account_name with
  | some (AcctVal.entry b _) => b
  | some (AcctVal.num x) => x
  | none => 0

/-! Injective numeric encodings of the block data, used to build a concrete
collision-free instantiation of the abstract hash/serialization functions for
the witnesses of the tamper-detection claims. -/

/-- Injective encoding of a list of naturals. -/
def listN : List ℕ → ℕ
  | [] => 0
  | x :: xs => Nat.pair x (listN xs) + 1

/-- Injective encoding of a string. -/
def strN (s : String) : ℕ := listN (s.data.map Char.toNat)

/-- Injective encoding of a rational. -/
def ratN (q : ℚ) : ℕ := Encodable.encode q

/-- Injective encoding of a transaction record. -/
def txN (t : Tx) : ℕ :=
  Nat.pair (strN t.sender) (Nat.pair (strN t.receiver)
    (Nat.pair (ratN t.amount) (Nat.pair (strN t.ttype) (ratN t.timestamp))))

/-- Injective encoding of a block's `transactions` field. -/
def txDataN : TxData → ℕ
  | TxData.str s => Nat.pair 0 (strN s)
  | TxData.list l => Nat.pair 1 (listN (l.map txN))

/-- Injective encoding of the four hashed block fields. -/
def blockDataN (d : BlockData) : ℕ :=
  Nat.pair (txDataN d.transactions)
    (Nat.pair (ratN d.timestamp) (Nat.pair (strN d.roll_no) (strN d.prev_hash)))

/-- A concrete injective "serializer": a unary string (no underscore
characters) whose length encodes the block data. -/
def unaryJ (d : BlockData) : String := String.mk (List.replicate (blockDataN d) 'a')

/-- A concrete instantiation of the external library functions whose induced
block digest is provably collision-free, used to discharge the injectivity
hypotheses of the tamper-detection theorems. -/
def witLib : LibFuns :=
  { sha256 := fun s => s, jsonDumps := unaryJ, pyFmt := fun _ => "" }

end ZakatSim

namespace ZakatSim

/-! ### Basic lemmas about the embedded operations -/

theorem blockData_mkNew (L : LibFuns) (t : TxData) (p r : String) (n : ℚ) :
    blockData (Block.mkNew L t p r n) = ⟨t, n, r, p⟩ := rfl

theorem verify_integrity_mkNew (L : LibFuns) (t : TxData) (p r : String) (n : ℚ) :
    (Block.mkNew L t p r n).verify_integrity L = true := by
  simp [Block.verify_integrity, Block.compute_hash, Block.mkNew, blockData]

theorem add_block_of_getLast (L : LibFuns) (bc : Blockchain) (t : TxData)
    (r : String) (n : ℚ) (prev : Block) (h : bc.chain.getLast? = some prev) :
    bc.add_block L t r n =
      (true, { chain := bc.chain ++ [Block.mkNew L t prev.hash r n]
               accounts := update_account_balances_from_block bc.accounts
                 (Block.mkNew L t prev.hash r n) }) := by
  unfold Blockchain.add_block
  rw [h]
  simp [Block.verify_integrity, Block.compute_hash, Block.mkNew, blockData]

theorem isValidFrom_iff (L : LibFuns) (l : List Block) :
    ∀ prev : Block, isValidFrom L prev l = true ↔
      (∀ b ∈ l, b.verify_integrity L = true) ∧ List.Chain linkOk prev l := by
  induction l with
  | nil => intro prev; simp [isValidFrom]
  | cons b rest ih =>
    intro prev
    simp only [isValidFrom, Bool.and_eq_true, beq_iff_eq, ih b, List.chain_cons,
      List.mem_cons, linkOk]
    constructor
    · rintro ⟨⟨hv, hl⟩, hrest, hchain⟩
      exact ⟨fun x hx => hx.elim (fun e => e ▸ hv) (hrest x), hl, hchain⟩
    · rintro ⟨hall, hl, hchain⟩
      exact ⟨⟨hall b (Or.inl rfl), hl⟩, fun x hx => hall x (Or.inr hx), hchain⟩

theorem is_valid_iff_chain (L : LibFuns) (bc : Blockchain) :
    bc.is_valid L = true ↔
      bc.chain ≠ [] ∧ (∀ b ∈ bc.chain, b.verify_integrity L = true) ∧
        List.Chain' linkOk bc.chain := by
  cases h : bc.chain with
  | nil => simp [Blockchain.is_valid, h]
  | cons b rest =>
    simp only [Blockchain.is_valid, h, Bool.and_eq_true, isValidFrom_iff]
    constructor
    · rintro ⟨hv, hrest, hchain⟩
      refine ⟨by simp, fun x hx => ?_, by dsimp only [List.Chain']; exact hchain⟩
      rcases List.mem_cons.mp hx with rfl | hx'
      · exact hv
      · exact hrest x hx'
    · rintro ⟨-, hall, hchain⟩
      exact ⟨hall b (by simp), fun x hx => hall x (by simp [hx]),
        by dsimp only [List.Chain'] at hchain; exact hchain⟩

theorem is_valid_snoc (L : LibFuns) (c : List Block) (acc acc2 : List (String × AcctVal))
    (nb prev : Block) (h : Blockchain.is_valid L ⟨c, acc⟩ = true)
    (hl : c.getLast? = some prev) (hv : nb.verify_integrity L = true)
    (hp : nb.prev_hash = prev.hash) :
    Blockchain.is_valid L ⟨c ++ [nb], acc2⟩ = true := by
  rw [is_valid_iff_chain] at h ⊢
  obtain ⟨hne, hall, hchain⟩ := h
  refine ⟨by simp, ?_, ?_⟩
  · intro b hb
    rcases List.mem_append.mp hb with hb | hb
    · exact hall b hb
    · rw [List.mem_singleton.mp hb]; exact hv
  · refine List.chain'_append.mpr ⟨hchain, List.chain'_singleton nb, ?_⟩
    intro x hx y hy
    rw [hl] at hx
    have hx' : prev = x := by simpa using hx
    have hy' : nb = y := by simpa using hy
    rw [← hx', ← hy']
    exact hp

theorem is_valid_iff_get (L : LibFuns) (bc : Blockchain) :
    bc.is_valid L = true ↔
      bc.chain ≠ [] ∧ (∀ b ∈ bc.chain, b.verify_integrity L = true) ∧
        ∀ (i : ℕ) (h : i + 1 < bc.chain.length),
          (bc.chain.get ⟨i + 1, h⟩).prev_hash =
            (bc.chain.get ⟨i, by omega⟩).hash := by
  rw [is_valid_iff_chain]
  refine and_congr_right fun _ => and_congr_right fun _ => ?_
  rw [List.chain'_iff_get]
  constructor
  · intro h i hi
    exact (h i (by omega)).symm ▸ rfl
  · intro h i hi
    exact h i (by omega)

/-- The hashed data of a block is unchanged when only the stored `hash` field
is replaced. -/
theorem blockData_setHash (b : Block) (h2 : String) :
    blockData { b with hash := h2 } = blockData b := rfl

/-! ### C3 -/

/-- C3: `is_valid` returns false exactly on an empty chain, a block whose
stored hash differs from its recomputed hash, or a non-genesis block whose
`prev_hash` differs from its predecessor's stored hash; and it returns true
whenever none of these holds.  In particular, replacing any block's stored
hash by a different value, or any non-genesis block's `prev_hash` by a value
different from its predecessor's hash, makes `is_valid` false. -/
theorem c3_is_valid_characterization (L : LibFuns) (bc : Blockchain) :
    (bc.is_valid L = true ↔
      bc.chain ≠ [] ∧ (∀ b ∈ bc.chain, b.verify_integrity L = true) ∧
        ∀ (i : ℕ) (hi : i + 1 < bc.chain.length),
          (bc.chain.get ⟨i + 1, hi⟩).prev_hash =
            (bc.chain.get ⟨i, by omega⟩).hash) ∧
    (∀ (i : ℕ) (hi : i < bc.chain.length) (h2 : String),
        bc.is_valid L = true → h2 ≠ (bc.chain.get ⟨i, hi⟩).hash →
        Blockchain.is_valid L
          ⟨bc.chain.set i { bc.chain.get ⟨i, hi⟩ with hash := h2 },
            bc.accounts⟩ = false) ∧
    (∀ (i : ℕ) (hi : i + 1 < bc.chain.length) (p2 : String),
        p2 ≠ (bc.chain.get ⟨i, by omega⟩).hash →
        Blockchain.is_valid L
          ⟨bc.chain.set (i + 1) { bc.chain.get ⟨i + 1, hi⟩ with prev_hash := p2 },
            bc.accounts⟩ = false) := by
  refine ⟨is_valid_iff_get L bc, ?_, ?_⟩
  · intro i hi h2 hvalid hne
    rw [← Bool.not_eq_true, is_valid_iff_chain]
    rintro ⟨-, hall, -⟩
    have hlen : i < (bc.chain.set i
        { bc.chain.get ⟨i, hi⟩ with hash := h2 }).length := by simpa using hi
    have hgood : (bc.chain.set i { bc.chain.get ⟨i, hi⟩ with hash := h2 }).get
        ⟨i, hlen⟩ = { bc.chain.get ⟨i, hi⟩ with hash := h2 } := by
      simp [List.get_eq_getElem, List.getElem_set_self]
    have hmem : ({ bc.chain.get ⟨i, hi⟩ with hash := h2 } : Block) ∈
        bc.chain.set i { bc.chain.get ⟨i, hi⟩ with hash := h2 } :=
      List.mem_iff_get.mpr ⟨⟨i, hlen⟩, hgood⟩
    have hver := hall _ hmem
    simp only [Block.verify_integrity, Block.compute_hash, blockData_setHash,
      beq_iff_eq] at hver
    have horig := ((is_valid_iff_chain L bc).mp hvalid).2.1
      (bc.chain.get ⟨i, hi⟩) (List.get_mem _ _ _)
    simp only [Block.verify_integrity, beq_iff_eq] at horig
    exact hne (hver.trans horig.symm)
  · intro i hi p2 hne
    rw [← Bool.not_eq_true, is_valid_iff_get]
    rintro ⟨-, -, hlink⟩
    have hlen : i + 1 < (bc.chain.set (i + 1)
        { bc.chain.get ⟨i + 1, hi⟩ with prev_hash := p2 }).length := by
      simpa using hi
    have h1 : (bc.chain.set (i + 1)
        { bc.chain.get ⟨i + 1, hi⟩ with prev_hash := p2 }).get ⟨i + 1, hlen⟩ =
        { bc.chain.get ⟨i + 1, hi⟩ with prev_hash := p2 } := by
      simp [List.get_eq_getElem, List.getElem_set_self]
    have h2 : (bc.chain.set (i + 1)
        { bc.chain.get ⟨i + 1, hi⟩ with prev_hash := p2 }).get
        ⟨i, by omega⟩ = bc.chain.get ⟨i, by omega⟩ := by
      simp [List.get_eq_getElem, List.getElem_set_ne]
    have := hlink i hlen
    rw [h1, h2] at this
    exact hne this

/-- Witness for C3: on the concretely mined two-block chain, replacing the
genesis block's stored hash by `"BAD"`, or the second block's `prev_hash` by
`"BAD"`, makes `is_valid` false. -/
theorem c3_is_valid_characterization_witness :
    Blockchain.is_valid simpleLib
      ⟨scMined.chain.set 0 { scMined.chain.get ⟨0, by decide⟩ with hash := "BAD" },
        scMined.accounts⟩ = false ∧
    Blockchain.is_valid simpleLib
      ⟨scMined.chain.set 1 { scMined.chain.get ⟨1, by decide⟩ with prev_hash := "BAD" },
        scMined.accounts⟩ = false :=
  ⟨(c3_is_valid_characterization simpleLib scMined).2.1 0 (by decide) "BAD"
      (by decide) (by decide),
    (c3_is_valid_characterization simpleLib scMined).2.2 0 (by decide) "BAD"
      (by decide)⟩

/-! ### C4 -/

/-- C4: every ledger state reachable by construction followed by a finite
sequence of successful `add_block` calls satisfies `is_valid`; equivalently,
its chain is non-empty, every block's stored hash equals its recomputed hash,
and every non-genesis block's `prev_hash` equals its predecessor's hash. -/
theorem c4_reachable_is_valid (L : LibFuns) (bc : Blockchain)
    (h : Reachable L bc) :
    bc.is_valid L = true ∧ bc.chain ≠ [] ∧
      (∀ b ∈ bc.chain, b.verify_integrity L = true) ∧
      ∀ (i : ℕ) (hi : i + 1 < bc.chain.length),
        (bc.chain.get ⟨i + 1, hi⟩).prev_hash =
          (bc.chain.get ⟨i, by omega⟩).hash := by
  have hv : bc.is_valid L = true := by
    induction h with
    | init roll_no now =>
      simp [Blockchain.init, Blockchain.is_valid, isValidFrom,
        verify_integrity_mkNew]
    | step bc t roll_no now hr hs ih =>
      have hne : bc.chain ≠ [] := ((is_valid_iff_chain L bc).mp ih).1
      obtain ⟨prev, hprev⟩ :=
        Option.isSome_iff_exists.mp (List.getLast?_isSome.mpr hne)
      rw [add_block_of_getLast L bc t roll_no now prev hprev]
      exact is_valid_snoc L bc.chain bc.accounts _ _ prev
        (by cases bc; exact ih) hprev
        (verify_integrity_mkNew L t prev.hash roll_no now) rfl
  exact ⟨hv, (is_valid_iff_get L bc).mp hv⟩

/-- Witness for C4: the ledger obtained from a fresh construction followed by
one successful `add_block` call satisfies `is_valid`. -/
theorem c4_reachable_is_valid_witness : scMined.is_valid simpleLib = true := by
  have h1 : Reachable simpleLib scFresh := Reachable.init "0000" 0
  have h2 : Reachable simpleLib scMined :=
    Reachable.step scFresh (TxData.list [scTransfer, scZakat]) "r1" 1 h1 (by decide)
  exact (c4_reachable_is_valid simpleLib scMined h2).1

/-! ### C5 -/

/-- C5: `add_block` builds a candidate block whose `prev_hash` is the tip's
hash and appends it exactly when the candidate passes `verify_integrity` and
its `prev_hash` equals the tip's hash; on a false return (in particular on an
empty chain) the state is completely unchanged, and on success exactly the one
candidate block is appended, the accounts mirror is replayed from it, and true
is returned. -/
theorem c5_add_block (L : LibFuns) (bc : Blockchain) (t : TxData) (r : String)
    (n : ℚ) :
    (∀ prev, bc.chain.getLast? = some prev →
      ((bc.add_block L t r n).1 =
        ((Block.mkNew L t prev.hash r n).verify_integrity L &&
          ((Block.mkNew L t prev.hash r n).prev_hash == prev.hash))) ∧
      ((bc.add_block L t r n).1 = true →
        (bc.add_block L t r n).2.chain =
            bc.chain ++ [Block.mkNew L t prev.hash r n] ∧
          (bc.add_block L t r n).2.accounts =
            update_account_balances_from_block bc.accounts
              (Block.mkNew L t prev.hash r n))) ∧
    (bc.chain = [] → bc.add_block L t r n = (false, bc)) ∧
    ((bc.add_block L t r n).1 = false → (bc.add_block L t r n).2 = bc) := by
  refine ⟨?_, ?_, ?_⟩
  · intro prev hprev
    rw [add_block_of_getLast L bc t r n prev hprev]
    refine ⟨?_, fun _ => ⟨rfl, rfl⟩⟩
    rw [verify_integrity_mkNew]
    simp [Block.mkNew]
  · intro hnil
    unfold Blockchain.add_block
    rw [hnil]
    rfl
  · intro hfalse
    cases hprev : bc.chain.getLast? with
    | none =>
      unfold Blockchain.add_block
      rw [hprev]
    | some prev =>
      rw [add_block_of_getLast L bc t r n prev hprev] at hfalse
      exact absurd hfalse (by simp)

/-- Witness for C5: on the fresh ledger `add_block` appends exactly the
candidate block, and on an artificial empty-chain state it returns false and
leaves the state unchanged. -/
theorem c5_add_block_witness :
    ((scFresh.add_block simpleLib (TxData.list [scTransfer, scZakat]) "r1" 1).2.chain =
      scFresh.chain ++ [Block.mkNew simpleLib (TxData.list [scTransfer, scZakat])
        (Block.mkNew simpleLib (TxData.str "Genesis Block") "0" "0000" 0).hash "r1" 1]) ∧
    Blockchain.add_block simpleLib ⟨[], []⟩ (TxData.str "x") "r" 0 =
      (false, (⟨[], []⟩ : Blockchain)) :=
  ⟨(((c5_add_block simpleLib scFresh (TxData.list [scTransfer, scZakat]) "r1" 1).1
      (Block.mkNew simpleLib (TxData.str "Genesis Block") "0" "0000" 0) rfl).2
      (by decide)).1,
    (c5_add_block simpleLib ⟨[], []⟩ (TxData.str "x") "r" 0).2.1 rfl⟩

/-! ### C7 -/

/-- C7: a block's stored hash is, at construction, exactly the abstract
SHA-256 of the canonical serialization of its four data fields concatenated
with `"_" ++ sealKey`; and the hash computation is a deterministic function of
those four fields, so equal field values always produce equal hashes. -/
theorem c7_hash_construction (L : LibFuns) :
    (∀ (t : TxData) (p r : String) (n : ℚ),
      (Block.mkNew L t p r n).hash =
        L.sha256 (L.jsonDumps ⟨t, n, r, p⟩ ++ "_" ++ r)) ∧
    ∀ b b2 : Block, blockData b = blockData b2 →
      b.compute_hash L = b2.compute_hash L := by
  refine ⟨fun t p r n => rfl, fun b b2 h => ?_⟩
  unfold Block.compute_hash
  rw [h]

/-- Witness for C7: the determinism part applied to two concrete blocks with
equal data fields but different stored hashes. -/
theorem c7_hash_construction_witness :
    Block.compute_hash simpleLib ⟨TxData.str "x", 0, "r1", "0", "h1"⟩ =
      Block.compute_hash simpleLib ⟨TxData.str "x", 0, "r1", "0", "h2"⟩ :=
  (c7_hash_construction simpleLib).2 ⟨TxData.str "x", 0, "r1", "0", "h1"⟩
    ⟨TxData.str "x", 0, "r1", "0", "h2"⟩ rfl

/-! ### C6 -/

/-- C6: `validate_transaction_against_blockchain` answers false, with the
insufficient-balance message, exactly when the sender's replayed balance is
below `amount * 1.025` (the code's `amount + amount * 0.025`), and answers
`(true, "Transaction is valid")` otherwise — regardless of the receiver, of
account existence in the mirror, or of sender/receiver equality; the function
reads but never produces ledger state, so it mutates nothing. -/
theorem c6_validate_transaction (L : LibFuns) (bc : Blockchain)
    (sender receiver : String) (amount : ℚ) :
    (bc.validate_transaction_against_blockchain L sender receiver amount =
        (false, "Insufficient balance. " ++ sender ++ " has $" ++
          L.pyFmt (bc.calculate_account_balance_from_history sender) ++
          " but needs $" ++ L.pyFmt (amount + amount * 0.025)) ↔
      bc.calculate_account_balance_from_history sender < amount * 1.025) ∧
    (bc.validate_transaction_against_blockchain L sender receiver amount =
        (true, "Transaction is valid") ↔
      ¬ bc.calculate_account_balance_from_history sender < amount * 1.025) := by
  have key : amount + amount * 0.025 = amount * 1.025 := by ring_nf
  unfold Blockchain.validate_transaction_against_blockchain
  by_cases h : bc.calculate_account_balance_from_history sender < amount + amount * 0.025
  · rw [if_pos h]
    rw [key] at h
    constructor
    · exact ⟨fun _ => h, fun _ => rfl⟩
    · exact ⟨fun he => absurd (congrArg Prod.fst he) (by simp),
        fun hn => absurd h hn⟩
  · rw [if_neg h]
    rw [key] at h
    constructor
    · exact ⟨fun he => absurd (congrArg Prod.fst he) (by simp), fun hlt => absurd hlt h⟩
    · exact ⟨fun _ => h, fun _ => rfl⟩

/-! ### Replay additivity lemmas -/

theorem replayStep_add (a : String) (x y : ℚ) (tx : Tx) :
    replayStep a (x + y) tx = x + replayStep a y tx := by
  unfold replayStep
  split_ifs <;> ring

theorem foldl_replayStep_add (a : String) (l : List Tx) :
    ∀ x y : ℚ, l.foldl (replayStep a) (x + y) = x + l.foldl (replayStep a) y := by
  induction l with
  | nil => intro x y; rfl
  | cons t rest ih =>
    intro x y
    simp only [List.foldl_cons, replayStep_add, ih]

theorem replayBlock_add (a : String) (x y : ℚ) (b : Block) :
    replayBlock a (x + y) b = x + replayBlock a y b := by
  unfold replayBlock
  cases b.transactions with
  | str s => rfl
  | list txs => exact foldl_replayStep_add a txs x y

theorem foldl_replayBlock_add (a : String) (c : List Block) :
    ∀ x y : ℚ, c.foldl (replayBlock a) (x + y) = x + c.foldl (replayBlock a) y := by
  induction c with
  | nil => intro x y; rfl
  | cons b rest ih =>
    intro x y
    simp only [List.foldl_cons, replayBlock_add, ih]

theorem foldl_replay_eq_delta (a : String) (c : List Block) (x : ℚ) :
    c.foldl (replayBlock a) x = x + chainDelta c a := by
  have h := foldl_replayBlock_add a c x 0
  rw [add_zero] at h
  rw [h, chainDelta]

theorem history_eq_start_add_delta (bc : Blockchain) (a : String) :
    bc.calculate_account_balance_from_history a =
      (if a ≠ "Zakat_Account" then (200 : ℚ) else 0) + chainDelta bc.chain a := by
  unfold Blockchain.calculate_account_balance_from_history
  exact foldl_replay_eq_delta a bc.chain _

theorem calc_append_singleton (c : List Block) (acc acc2 : List (String × AcctVal))
    (nb : Block) (x : String) :
    Blockchain.calculate_account_balance_from_history ⟨c ++ [nb], acc2⟩ x =
      Blockchain.calculate_account_balance_from_history ⟨c, acc⟩ x +
        replayBlock x 0 nb := by
  unfold Blockchain.calculate_account_balance_from_history
  simp only [List.foldl_append, List.foldl_cons, List.foldl_nil]
  calc replayBlock x (c.foldl (replayBlock x) _) nb
      = replayBlock x (c.foldl (replayBlock x) _ + 0) nb := by rw [add_zero]
    _ = _ := replayBlock_add ..

/-! ### C2 -/

/-- C2 counterexample: on a fresh ledger, `Transaction`'s replay returns 0 for
`Alice` (absent from the accounts mirror) while the ledger's authoritative
replay returns the 200 starting balance, so the two balance functions are not
equal. -/
theorem c2_counterexample :
    (Transaction.mk "Alice" "Bob" 1 0).calculate_balance_from_blockchain
        scFresh "Alice" ≠
      scFresh.calculate_account_balance_from_history "Alice" := by
  simp [Transaction.calculate_balance_from_blockchain,
    Blockchain.calculate_account_balance_from_history, scFresh, Blockchain.init,
    get_all_accounts, dictGet, replayBlock, Block.mkNew]

/-- C2 (amended): `Transaction.calculate_balance_from_blockchain` returns the
accounts-mirror balance of the account (0 when absent) plus the full-chain
replay delta, while `calculate_account_balance_from_history` returns the
default starting balance (200, or 0 for `Zakat_Account`) plus the same delta;
hence the two agree exactly when the mirror starting value equals the default
starting balance, and differ otherwise. -/
theorem c2_amended_balance_decomposition (bc : Blockchain) (a : String)
    (t : Transaction) :
    t.calculate_balance_from_blockchain bc a =
        mirrorStart bc a + chainDelta bc.chain a ∧
    bc.calculate_account_balance_from_history a =
        (if a ≠ "Zakat_Account" then (200 : ℚ) else 0) + chainDelta bc.chain a ∧
    (t.calculate_balance_from_blockchain bc a =
        bc.calculate_account_balance_from_history a ↔
      mirrorStart bc a = (if a ≠ "Zakat_Account" then (200 : ℚ) else 0)) := by
  have h1 : t.calculate_balance_from_blockchain bc a =
      mirrorStart bc a + chainDelta bc.chain a := by
    unfold Transaction.calculate_balance_from_blockchain mirrorStart
    cases h : dictGet (get_all_accounts bc.accounts) a with
    | none => simp [h, foldl_replay_eq_delta]
    | some v =>
      cases v with
      | entry b r => simp [h, foldl_replay_eq_delta]
      | num x => simp [h, foldl_replay_eq_delta]
  have h2 := history_eq_start_add_delta bc a
  refine ⟨h1, h2, ?_⟩
  rw [h1, h2]
  exact add_left_inj _

/-! ### C1 -/

/-- C1 counterexample: after mining the transfer record `Alice→Bob, 50` and
its zakat record `Alice→Zakat_Account, 1.25` on a fresh ledger, Alice's
replayed balance is 147.5 (the transfer record costs 50 + 1.25 recomputed
levy, and the zakat record costs another 1.25), not the 148.75 the claim
states. -/
theorem c1_counterexample :
    scMined.calculate_account_balance_from_history "Alice" = 147.5 ∧
    (147.5 : ℚ) ≠ 148.75 := by
  constructor
  · simp [scMined, scFresh, Blockchain.init, Blockchain.add_block, Block.mkNew,
      Block.verify_integrity, Block.compute_hash, blockData, computeHashData,
      simpleLib, Blockchain.calculate_account_balance_from_history, replayBlock,
      replayStep, scTransfer, scZakat, update_account_balances_from_block,
      updBalancesOne, dictGet, dictSet]
    norm_num
  · norm_num

/-- C1 (amended): mining a transfer record of amount `A` together with its
zakat record of amount `A * 0.025` (same sender) decreases the sender's
replayed balance by exactly `A * 1.05` — `A` plus the levy recomputed during
replay of the transfer record plus the zakat record's own amount — while
`Zakat_Account`'s replayed balance increases by exactly `A * 0.025` and the
receiver's by exactly `A`; in the worked scenario Alice ends at 147.5, Bob at
250 and `Zakat_Account` at 1.25. -/
theorem c1_amended_transfer_deltas (L : LibFuns) (bc : Blockchain)
    (sender receiver roll_no : String) (A t1 t2 now : ℚ) (prev : Block)
    (hlast : bc.chain.getLast? = some prev) (hsr : sender ≠ receiver)
    (hsz : sender ≠ "Zakat_Account") (hrz : receiver ≠ "Zakat_Account") :
    ((bc.add_block L (TxData.list
        [⟨sender, receiver, A, "transfer", t1⟩,
          ⟨sender, "Zakat_Account", A * 0.025, "zakat", t2⟩])
        roll_no now).2.calculate_account_balance_from_history sender =
      bc.calculate_account_balance_from_history sender - A * 1.05) ∧
    ((bc.add_block L (TxData.list
        [⟨sender, receiver, A, "transfer", t1⟩,
          ⟨sender, "Zakat_Account", A * 0.025, "zakat", t2⟩])
        roll_no now).2.calculate_account_balance_from_history receiver =
      bc.calculate_account_balance_from_history receiver + A) ∧
    ((bc.add_block L (TxData.list
        [⟨sender, receiver, A, "transfer", t1⟩,
          ⟨sender, "Zakat_Account", A * 0.025, "zakat", t2⟩])
        roll_no now).2.calculate_account_balance_from_history "Zakat_Account" =
      bc.calculate_account_balance_from_history "Zakat_Account" + A * 0.025) := by
  rw [add_block_of_getLast L bc _ roll_no now prev hlast]
  dsimp only
  refine ⟨?_, ?_, ?_⟩
  · rw [calc_append_singleton bc.chain bc.accounts _ _ sender]
    simp [replayBlock, Block.mkNew, replayStep, hsr, hsz, hrz,
      Ne.symm hsr, Ne.symm hsz, Ne.symm hrz]
    ring_nf
  · rw [calc_append_singleton bc.chain bc.accounts _ _ receiver]
    simp [replayBlock, Block.mkNew, replayStep, hsr, hsz, hrz,
      Ne.symm hsr, Ne.symm hsz, Ne.symm hrz]
  · rw [calc_append_singleton bc.chain bc.accounts _ _ "Zakat_Account"]
    simp [replayBlock, Block.mkNew, replayStep, hsr, hsz, hrz,
      Ne.symm hsr, Ne.symm hsz, Ne.symm hrz]

/-! ### Dictionary lemmas -/

theorem dictGet_dictSet_self {α : Type} (m : List (String × α)) (k : String)
    (v : α) : dictGet (dictSet m k v) k = some v := by
  induction m with
  | nil => simp [dictSet, dictGet]
  | cons p rest ih =>
    obtain ⟨k2, w⟩ := p
    by_cases h : k2 = k
    · simp [dictSet, h, dictGet]
    · simp [dictSet, h, dictGet, ih]

theorem dictGet_dictSet_ne {α : Type} (m : List (String × α)) (k k2 : String)
    (v : α) (h : k2 ≠ k) : dictGet (dictSet m k v) k2 = dictGet m k2 := by
  induction m with
  | nil => simp [dictSet, dictGet, Ne.symm h]
  | cons p rest ih =>
    obtain ⟨k3, w⟩ := p
    by_cases h3 : k3 = k
    · subst h3
      simp [dictSet, dictGet, Ne.symm h]
    · simp [dictSet, h3, dictGet, ih]

theorem keys_dictSet {α : Type} (m : List (String × α)) (k : String) (v : α)
    (h : (dictGet m k).isSome) :
    (dictSet m k v).map Prod.fst = m.map Prod.fst := by
  induction m with
  | nil => simp [dictGet] at h
  | cons p rest ih =>
    obtain ⟨k2, w⟩ := p
    by_cases h2 : k2 = k
    · simp [dictSet, h2]
    · rw [dictGet] at h
      rw [if_neg h2] at h
      simp [dictSet, h2, ih h]

theorem sum_dictSet (m : List (String × ℚ)) (k : String) (v w : ℚ)
    (h : dictGet m k = some v) :
    ((dictSet m k w).map Prod.snd).sum = (m.map Prod.snd).sum - v + w := by
  induction m with
  | nil => simp [dictGet] at h
  | cons p rest ih =>
    obtain ⟨k2, u⟩ := p
    by_cases h2 : k2 = k
    · rw [dictGet, if_pos h2] at h
      have hu : u = v := Option.some.inj h
      subst hu
      simp [dictSet, h2]
      ring
    · rw [dictGet, if_neg h2] at h
      simp [dictSet, h2, ih h]
      ring

/-! ### C10 -/

/-- C10: when the sender and receiver are distinct present keys and
`Transaction.apply` succeeds, only their entries change — the sender's balance
drops by exactly `amount`, the receiver's rises by exactly `amount` — every
other key keeps its value, the key set (with order) is unchanged, and the sum
of all balances is preserved. -/
theorem c10_apply_frame (L : LibFuns) (t : Transaction)
    (accounts m2 : List (String × ℚ)) (sb rb : ℚ)
    (hs : dictGet accounts t.sender = some sb)
    (hr : dictGet accounts t.receiver = some rb)
    (hne : t.sender ≠ t.receiver)
    (hok : t.apply L accounts = Except.ok m2) :
    dictGet m2 t.sender = some (sb - t.amount) ∧
    dictGet m2 t.receiver = some (rb + t.amount) ∧
    (∀ k, k ≠ t.sender → k ≠ t.receiver → dictGet m2 k = dictGet accounts k) ∧
    m2.map Prod.fst = accounts.map Prod.fst ∧
    (m2.map Prod.snd).sum = (accounts.map Prod.snd).sum := by
  have hm1r : dictGet (dictSet accounts t.sender (sb - t.amount)) t.receiver =
      some rb := by
    rw [dictGet_dictSet_ne _ _ _ _ (Ne.symm hne)]
    exact hr
  unfold Transaction.apply at hok
  rw [hs, hr] at hok
  dsimp only at hok
  by_cases h1 : t.amount ≤ 0
  · rw [if_pos h1] at hok
    simp at hok
  rw [if_neg h1] at hok
  by_cases h2 : sb < t.amount
  · rw [if_pos h2] at hok
    simp at hok
  rw [if_neg h2] at hok
  · have hm2 : dictSet (dictSet accounts t.sender (sb - t.amount)) t.receiver
        (((dictGet (dictSet accounts t.sender (sb - t.amount)) t.receiver).getD 0) +
          t.amount) = m2 := Except.ok.inj hok
    rw [hm1r] at hm2
    simp only [Option.getD_some] at hm2
    subst hm2
    refine ⟨?_, ?_, ?_, ?_, ?_⟩
    · rw [dictGet_dictSet_ne _ _ _ _ hne, dictGet_dictSet_self]
    · rw [dictGet_dictSet_self]
    · intro k hks hkr
      rw [dictGet_dictSet_ne _ _ _ _ hkr, dictGet_dictSet_ne _ _ _ _ hks]
    · rw [keys_dictSet _ _ _ (by rw [hm1r]; rfl),
        keys_dictSet _ _ _ (by rw [hs]; rfl)]
    · rw [sum_dictSet _ _ rb _ hm1r, sum_dictSet _ _ sb _ hs]
      ring

/-- Witness for C10: a concrete three-account balance map with a successful
transfer of 5 from `"A"` to `"B"`. -/
theorem c10_apply_frame_witness :
    dictGet [("A", (5 : ℚ)), ("B", 6), ("C", 7)] "A" = some (10 - 5) ∧
    dictGet [("A", (5 : ℚ)), ("B", 6), ("C", 7)] "B" = some (1 + 5) ∧
    (∀ k, k ≠ "A" → k ≠ "B" →
      dictGet [("A", (5 : ℚ)), ("B", 6), ("C", 7)] k =
        dictGet [("A", (10 : ℚ)), ("B", 1), ("C", 7)] k) ∧
    ([("A", (5 : ℚ)), ("B", 6), ("C", 7)].map Prod.fst =
      [("A", (10 : ℚ)), ("B", 1), ("C", 7)].map Prod.fst) ∧
    ([("A", (5 : ℚ)), ("B", 6), ("C", 7)].map Prod.snd).sum =
      ([("A", (10 : ℚ)), ("B", 1), ("C", 7)].map Prod.snd).sum :=
  c10_apply_frame simpleLib ⟨"A", "B", 5, 0⟩ [("A", 10), ("B", 1), ("C", 7)]
    [("A", 5), ("B", 6), ("C", 7)] 10 1 (by simp [dictGet]) (by simp [dictGet])
    (by simp)
    (by simp [Transaction.apply, dictGet, dictSet]
        norm_num)

/-! ### Injectivity of the concrete witness digest -/

theorem listN_injective : Function.Injective listN := by
  intro l1
  induction l1 with
  | nil =>
    intro l2 h
    cases l2 with
    | nil => rfl
    | cons y ys => simp only [listN] at h; omega
  | cons x xs ih =>
    intro l2 h
    cases l2 with
    | nil => simp only [listN] at h; omega
    | cons y ys =>
      simp only [listN] at h
      have h2 : Nat.pair x (listN xs) = Nat.pair y (listN ys) := by omega
      obtain ⟨hx, hxs⟩ := Nat.pair_eq_pair.mp h2
      rw [hx, ih hxs]

theorem charToNat_injective : Function.Injective Char.toNat :=
  fun _ _ h => Char.ext (UInt32.ext h)

theorem strN_injective : Function.Injective strN := by
  intro s t h
  have h2 := listN_injective h
  have h3 := List.map_injective_iff.mpr charToNat_injective h2
  cases s
  cases t
  exact congrArg String.mk h3

theorem ratN_injective : Function.Injective ratN :=
  fun _ _ h => Encodable.encode_injective h

theorem txN_injective : Function.Injective txN := by
  intro a b h
  unfold txN at h
  obtain ⟨h1, h2⟩ := Nat.pair_eq_pair.mp h
  obtain ⟨h3, h4⟩ := Nat.pair_eq_pair.mp h2
  obtain ⟨h5, h6⟩ := Nat.pair_eq_pair.mp h4
  obtain ⟨h7, h8⟩ := Nat.pair_eq_pair.mp h6
  cases a
  cases b
  simp only [Tx.mk.injEq]
  exact ⟨strN_injective h1, strN_injective h3, ratN_injective h5,
    strN_injective h7, ratN_injective h8⟩

theorem txDataN_injective : Function.Injective txDataN := by
  intro a b h
  cases a <;> cases b <;> simp only [txDataN] at h
  · obtain ⟨-, h2⟩ := Nat.pair_eq_pair.mp h
    rw [strN_injective h2]
  · obtain ⟨h1, -⟩ := Nat.pair_eq_pair.mp h
    omega
  · obtain ⟨h1, -⟩ := Nat.pair_eq_pair.mp h
    omega
  · obtain ⟨-, h2⟩ := Nat.pair_eq_pair.mp h
    rw [List.map_injective_iff.mpr txN_injective (listN_injective h2)]

theorem blockDataN_injective : Function.Injective blockDataN := by
  intro a b h
  unfold blockDataN at h
  obtain ⟨h1, h2⟩ := Nat.pair_eq_pair.mp h
  obtain ⟨h3, h4⟩ := Nat.pair_eq_pair.mp h2
  obtain ⟨h5, h6⟩ := Nat.pair_eq_pair.mp h4
  cases a
  cases b
  simp only [BlockData.mk.injEq]
  exact ⟨txDataN_injective h1, ratN_injective h3, strN_injective h5,
    strN_injective h6⟩

theorem replicate_underscore_inj : ∀ (n m : ℕ) (xs ys : List Char),
    List.replicate n 'a' ++ '_' :: xs = List.replicate m 'a' ++ '_' :: ys →
    n = m ∧ xs = ys := by
  intro n
  induction n with
  | zero =>
    intro m xs ys h
    cases m with
    | zero => simpa using h
    | succ m2 =>
      rw [List.replicate_succ] at h
      simp only [List.replicate, List.nil_append, List.cons_append,
        List.cons.injEq] at h
      exact absurd h.1 (by decide)
  | succ n2 ih =>
    intro m xs ys h
    cases m with
    | zero =>
      rw [List.replicate_succ] at h
      simp only [List.replicate, List.nil_append, List.cons_append,
        List.cons.injEq] at h
      exact absurd h.1 (by decide)
    | succ m2 =>
      rw [List.replicate_succ, List.replicate_succ] at h
      simp only [List.cons_append, List.cons.injEq] at h
      obtain ⟨hn, hxs⟩ := ih m2 xs ys h.2
      exact ⟨by rw [hn], hxs⟩

theorem computeHashData_witLib_eq (d : BlockData) :
    computeHashData witLib d = unaryJ d ++ "_" ++ d.roll_no := rfl

theorem computeHashData_witLib_injective :
    Function.Injective (computeHashData witLib) := by
  intro d1 d2 h
  rw [computeHashData_witLib_eq, computeHashData_witLib_eq] at h
  have hd := congrArg String.data h
  simp only [String.data_append] at hd
  have hd2 : List.replicate (blockDataN d1) 'a' ++ '_' :: d1.roll_no.data =
      List.replicate (blockDataN d2) 'a' ++ '_' :: d2.roll_no.data := by
    simpa [unaryJ, List.append_assoc] using hd
  obtain ⟨hn, -⟩ := replicate_underscore_inj _ _ _ _ hd2
  exact blockDataN_injective hn

/-! ### C8 -/

/-- C8: for every input, `verify_integrity` is true immediately after
construction; and, provided the digest map is collision-free (the intended
reading of SHA-256 over the canonical serialization), replacing any one of the
four data fields — transactions, timestamp, sealKey or prevHash — by a
different value after construction makes `verify_integrity` false. -/
theorem c8_verify_integrity_roundtrip (L : LibFuns)
    (hinj : Function.Injective (computeHashData L)) :
    (∀ (t : TxData) (p r : String) (n : ℚ),
      (Block.mkNew L t p r n).verify_integrity L = true) ∧
    ∀ (t : TxData) (p r : String) (n : ℚ),
      (∀ t2, t2 ≠ t →
        ({ Block.mkNew L t p r n with transactions := t2 }).verify_integrity L
          = false) ∧
      (∀ n2, n2 ≠ n →
        ({ Block.mkNew L t p r n with timestamp := n2 }).verify_integrity L
          = false) ∧
      (∀ r2, r2 ≠ r →
        ({ Block.mkNew L t p r n with roll_no := r2 }).verify_integrity L
          = false) ∧
      (∀ p2, p2 ≠ p →
        ({ Block.mkNew L t p r n with prev_hash := p2 }).verify_integrity L
          = false) := by
  refine ⟨fun t p r n => verify_integrity_mkNew L t p r n, fun t p r n => ?_⟩
  refine ⟨?_, ?_, ?_, ?_⟩ <;> intro v hv <;>
    · simp only [Block.verify_integrity, Block.compute_hash, Block.mkNew,
        blockData, beq_eq_false_iff_ne, ne_eq]
      intro he
      have := hinj he
      simp only [BlockData.mk.injEq] at this
      tauto

/-- Witness for C8: under the concrete collision-free digest, a freshly built
block verifies, and changing its transactions after construction breaks
verification. -/
theorem c8_verify_integrity_roundtrip_witness :
    (Block.mkNew witLib (TxData.str "x") "0" "r1" 0).verify_integrity witLib
      = true ∧
    ({ Block.mkNew witLib (TxData.str "x") "0" "r1" 0 with
        transactions := TxData.str "y" }).verify_integrity witLib = false :=
  ⟨(c8_verify_integrity_roundtrip witLib computeHashData_witLib_injective).1
      (TxData.str "x") "0" "r1" 0,
    ((c8_verify_integrity_roundtrip witLib computeHashData_witLib_injective).2
      (TxData.str "x") "0" "r1" 0).1 (TxData.str "y") (by decide)⟩

/-! ### C9 -/

/-- C9: provided the digest map is collision-free, two blocks built from
identical transactions and `prev_hash` but different seal keys (and any
creation instants) have different stored hashes. -/
theorem c9_seal_key_divergence (L : LibFuns)
    (hinj : Function.Injective (computeHashData L)) (t : TxData) (p : String)
    (r1 r2 : String) (n1 n2 : ℚ) (hr : r1 ≠ r2) :
    (Block.mkNew L t p r1 n1).hash ≠ (Block.mkNew L t p r2 n2).hash := by
  intro h
  have h2 := hinj h
  exact hr (congrArg BlockData.roll_no h2)

/-- Witness for C9: two concrete blocks with equal content and distinct seal
keys get distinct hashes under the concrete collision-free digest. -/
theorem c9_seal_key_divergence_witness :
    (Block.mkNew witLib (TxData.str "x") "0" "ra" 0).hash ≠
      (Block.mkNew witLib (TxData.str "x") "0" "rb" 0).hash :=
  c9_seal_key_divergence witLib computeHashData_witLib_injective
    (TxData.str "x") "0" "ra" "rb" 0 0 (by decide)

/-- Witness for C1 (amended): the deltas evaluated on the fresh ledger with
the worked scenario's records. -/
theorem c1_amended_transfer_deltas_witness :
    ((scFresh.add_block simpleLib (TxData.list
        [⟨"Alice", "Bob", 50, "transfer", 2⟩,
          ⟨"Alice", "Zakat_Account", 50 * 0.025, "zakat", 3⟩])
        "r1" 1).2.calculate_account_balance_from_history "Alice" =
      scFresh.calculate_account_balance_from_history "Alice" - 50 * 1.05) ∧
    ((scFresh.add_block simpleLib (TxData.list
        [⟨"Alice", "Bob", 50, "transfer", 2⟩,
          ⟨"Alice", "Zakat_Account", 50 * 0.025, "zakat", 3⟩])
        "r1" 1).2.calculate_account_balance_from_history "Bob" =
      scFresh.calculate_account_balance_from_history "Bob" + 50) ∧
    ((scFresh.add_block simpleLib (TxData.list
        [⟨"Alice", "Bob", 50, "transfer", 2⟩,
          ⟨"Alice", "Zakat_Account", 50 * 0.025, "zakat", 3⟩])
        "r1" 1).2.calculate_account_balance_from_history "Zakat_Account" =
      scFresh.calculate_account_balance_from_history "Zakat_Account" + 50 * 0.025) :=
  c1_amended_transfer_deltas simpleLib scFresh "Alice" "Bob" "r1" 50 2 3 1
    (Block.mkNew simpleLib (TxData.str "Genesis Block") "0" "0000" 0) rfl
    (by decide) (by decide) (by decide)

end ZakatSim
